import Mathlib

/-!
Verification of the batch content-generation pipeline in
BentoPlannerClean/scripts (generate_main_dishes.py, gen_simple.py,
generate_side_dishes.py, generate_preset_recipes.py).

Strings are modelled as `List Char`.  Python `str.split`, `str.strip`,
membership (`in`) and negative slicing are embedded as executable Lean
functions with the same semantics for the non-empty separators used by
the scripts.
-/

/-- The backtick character (code point 96), the fence delimiter char. -/
def btick : Char := Char.ofNat 96

/-- The fence marker searched for by the scripts (source: the string
literal in `response_text.split` calls). -/
def fenceStr : List Char := "```".toList

/-- The JSON-tagged fence marker (source: the guard
`if "```json" in response_text`). -/
def jsonFenceStr : List Char := "```json".toList

/-- Python whitespace predicate used by `str.strip()` (ASCII subset:
space, tab, newline, carriage return, vertical tab, form feed). -/
def pyIsSpace (c : Char) : Bool :=
  c = ' ' || c = '\t' || c = '\n' || c = '\r' || c = Char.ofNat 11 || c = Char.ofNat 12

/-- Embedding of Python `str.strip()`. -/
def pyStrip (s : List Char) : List Char :=
  ((s.dropWhile pyIsSpace).reverse.dropWhile pyIsSpace).reverse

/-- Embedding of Python substring membership `sep in s`
(for the non-empty separators used by the scripts). -/
def containsSub (sep : List Char) : List Char → Bool
  | [] => sep.isEmpty
  | c :: cs => sep.isPrefixOf (c :: cs) || containsSub sep cs

/-- Locate the first occurrence of `sep`: returns the text before it and
the text after it, or `none` when `sep` does not occur. -/
def splitFirst (sep : List Char) : List Char → Option (List Char × List Char)
  | [] => none
  | c :: cs =>
    if sep.isPrefixOf (c :: cs) then some ([], List.drop sep.length (c :: cs))
    else Option.map (fun pr => (c :: pr.1, pr.2)) (splitFirst sep cs)

/-- Fuel-driven worker for `pySplit`; the fuel strictly exceeds the text
length, so it is never exhausted for a non-empty separator. -/
def pySplitGo (sep : List Char) : Nat → List Char → List (List Char)
  | 0, s => [s]
  | fuel + 1, s =>
    match splitFirst sep s with
    | none => [s]
    | some (pre, post) => pre :: pySplitGo sep fuel post

/-- Embedding of Python `s.split(sep)` for a non-empty separator:
the list of segments between consecutive non-overlapping occurrences. -/
def pySplit (sep s : List Char) : List (List Char) :=
  pySplitGo sep (s.length + 1) s

/-- The Response Extractor, translated from
`generate_main_dishes.py` lines 120-123 (identical in the other three
scripts): `response_text.split("```json")[1].split("```")[0].strip()`
under the guard `"```json" in response_text`, else the same with
`"```"`, else the text unchanged.  Python's partial indexing `[1]` is
rendered with `List.getD`; the in-bounds proof is a separate theorem. -/
def extractJson (s : List Char) : List Char :=
  if containsSub jsonFenceStr s then
    pyStrip ((pySplit fenceStr ((pySplit jsonFenceStr s).getD 1 [])).getD 0 [])
  else if containsSub fenceStr s then
    pyStrip ((pySplit fenceStr ((pySplit fenceStr s).getD 1 [])).getD 0 [])
  else s

/-! Basic facts about the string model. -/

lemma jsonFence_eq : jsonFenceStr = btick :: btick :: btick :: 'j' :: 's' :: 'o' :: 'n' :: [] := by
  decide

lemma fence_eq : fenceStr = btick :: btick :: btick :: [] := by decide

lemma jsonFence_split : jsonFenceStr = fenceStr ++ "json".toList := by decide

lemma isPrefixOf_self_append (p r : List Char) : p.isPrefixOf (p ++ r) = true := by
  induction p with
  | nil => simp [List.isPrefixOf]
  | cons c cs ih => simp [List.isPrefixOf, ih]

lemma drop_self_append (p r : List Char) : List.drop p.length (p ++ r) = r := by
  induction p with
  | nil => rfl
  | cons c cs ih => simp [ih]

lemma isPrefixOf_of_append_isPrefixOf {p q s : List Char}
    (h : (p ++ q).isPrefixOf s = true) : p.isPrefixOf s = true := by
  induction p generalizing s with
  | nil => simp [List.isPrefixOf]
  | cons c cs ih =>
    cases s with
    | nil => simp [List.isPrefixOf] at h
    | cons d t =>
      simp only [List.cons_append, List.isPrefixOf, Bool.and_eq_true] at h ⊢
      exact ⟨h.1, ih h.2⟩

lemma exists_of_isPrefixOf {p s : List Char} (h : p.isPrefixOf s = true) :
    ∃ t, s = p ++ t := by
  induction p generalizing s with
  | nil => exact ⟨s, rfl⟩
  | cons c cs ih =>
    cases s with
    | nil => simp [List.isPrefixOf] at h
    | cons d t =>
      simp only [List.isPrefixOf, Bool.and_eq_true, beq_iff_eq] at h
      obtain ⟨t', ht'⟩ := ih h.2
      exact ⟨t', by simp [h.1, ht']⟩

lemma isPrefixOf_cons_of_ne {c₀ x : Char} {sep' t : List Char} (h : x ≠ c₀) :
    (c₀ :: sep').isPrefixOf (x :: t) = false := by
  have hb : (c₀ == x) = false := beq_eq_false_iff_ne.mpr (fun he => h he.symm)
  simp [List.isPrefixOf, hb]

lemma splitFirst_of_head_notMem {c₀ : Char} {sep' r : List Char} (h : c₀ ∉ r) :
    splitFirst (c₀ :: sep') r = none := by
  induction r with
  | nil => rfl
  | cons x t ih =>
    have hx : x ≠ c₀ := fun he => h (he ▸ List.mem_cons_self x t)
    have ht : c₀ ∉ t := fun hm => h (List.mem_cons_of_mem x hm)
    simp [splitFirst, isPrefixOf_cons_of_ne hx, ih ht]

lemma splitFirst_at_boundary {c₀ : Char} {sep' : List Char} (a r : List Char)
    (ha : c₀ ∉ a) :
    splitFirst (c₀ :: sep') (a ++ (c₀ :: sep') ++ r) = some (a, r) := by
  induction a with
  | nil =>
    have h1 := isPrefixOf_self_append (c₀ :: sep') r
    have h2 := drop_self_append (c₀ :: sep') r
    simp only [List.cons_append] at h1 h2
    simp only [List.nil_append, List.cons_append]
    simp [splitFirst, h1, h2]
  | cons x a' ih =>
    have hx : x ≠ c₀ := fun he => ha (he ▸ List.mem_cons_self x a')
    have ha' : c₀ ∉ a' := fun hm => ha (List.mem_cons_of_mem x hm)
    show splitFirst (c₀ :: sep') (x :: (a' ++ (c₀ :: sep') ++ r)) = some (x :: a', r)
    simp only [splitFirst, isPrefixOf_cons_of_ne hx, Bool.false_eq_true, if_false, ih ha']
    rfl

lemma containsSub_nil_sep (r : List Char) : containsSub [] r = true := by
  cases r <;> simp [containsSub, List.isPrefixOf]

lemma containsSub_of_boundary (sep a r : List Char) :
    containsSub sep (a ++ sep ++ r) = true := by
  induction a with
  | nil =>
    cases sep with
    | nil => simpa using containsSub_nil_sep r
    | cons c cs => simp [containsSub, isPrefixOf_self_append]
  | cons x a' ih =>
    have ih' : containsSub sep (a' ++ (sep ++ r)) = true := by
      simpa [List.append_assoc] using ih
    simp [containsSub, ih']

lemma containsSub_of_head_notMem {c₀ : Char} {sep' r : List Char} (h : c₀ ∉ r) :
    containsSub (c₀ :: sep') r = false := by
  induction r with
  | nil => rfl
  | cons x t ih =>
    have hx : x ≠ c₀ := fun he => h (he ▸ List.mem_cons_self x t)
    have ht : c₀ ∉ t := fun hm => h (List.mem_cons_of_mem x hm)
    simp [containsSub, isPrefixOf_cons_of_ne hx, ih ht]

lemma containsSub_fence_of_json {s : List Char}
    (h : containsSub jsonFenceStr s = true) : containsSub fenceStr s = true := by
  induction s with
  | nil => exact absurd h (by decide)
  | cons c cs ih =>
    simp only [containsSub, Bool.or_eq_true] at h ⊢
    rcases h with h | h
    · exact Or.inl (isPrefixOf_of_append_isPrefixOf (jsonFence_split ▸ h))
    · exact Or.inr (ih h)

lemma splitFirst_isSome_of_containsSub {sep s : List Char} (hsep : sep ≠ [])
    (h : containsSub sep s = true) : ∃ pre post, splitFirst sep s = some (pre, post) := by
  induction s with
  | nil =>
    exfalso
    have : sep.isEmpty = true := h
    exact hsep (List.isEmpty_iff.mp this)
  | cons c cs ih =>
    simp only [containsSub, Bool.or_eq_true] at h
    by_cases hp : sep.isPrefixOf (c :: cs) = true
    · exact ⟨[], List.drop sep.length (c :: cs), by simp [splitFirst, hp]⟩
    · rcases h with h | h
      · exact absurd h hp
      · obtain ⟨pre, post, hsp⟩ := ih h
        exact ⟨c :: pre, post, by simp [splitFirst, hp, hsp]⟩

lemma splitFirst_length_lt {sep s pre post : List Char}
    (h : splitFirst sep s = some (pre, post)) (hsep : sep ≠ []) :
    post.length < s.length := by
  induction s generalizing pre with
  | nil => simp [splitFirst] at h
  | cons c cs ih =>
    by_cases hp : sep.isPrefixOf (c :: cs) = true
    · simp only [splitFirst, hp, if_pos, Option.some.injEq, Prod.mk.injEq] at h
      have hlen : 1 ≤ sep.length := by
        cases sep with
        | nil => exact absurd rfl hsep
        | cons d ds => simp
      have := h.2
      subst this
      simp only [List.length_drop, List.length_cons]
      omega
    · simp only [splitFirst, hp, if_neg, Bool.false_eq_true, not_false_eq_true] at h
      cases hs : splitFirst sep cs with
      | none => rw [hs] at h; simp at h
      | some pr =>
        rw [hs] at h
        simp at h
        have := ih (show splitFirst sep cs = some (pr.1, post) by rw [hs, ← h.2])
        simp only [List.length_cons]
        omega

lemma pySplitGo_fuel_irrel {sep : List Char} (hsep : sep ≠ []) :
    ∀ f₁ f₂ s, s.length < f₁ → s.length < f₂ → pySplitGo sep f₁ s = pySplitGo sep f₂ s := by
  intro f₁
  induction f₁ with
  | zero => intro f₂ s h1 _; omega
  | succ f ih =>
    intro f₂ s h1 h2
    cases f₂ with
    | zero => omega
    | succ g =>
      simp only [pySplitGo]
      cases hs : splitFirst sep s with
      | none => rfl
      | some pr =>
        have hlt : pr.2.length < s.length :=
          splitFirst_length_lt (show splitFirst sep s = some (pr.1, pr.2) by rw [hs]) hsep
        exact congrArg (pr.1 :: ·) (ih g pr.2 (by omega) (by omega))

lemma pySplit_none {sep s : List Char} (h : splitFirst sep s = none) :
    pySplit sep s = [s] := by
  simp [pySplit, pySplitGo, h]

lemma pySplit_some {sep s pre post : List Char} (hsep : sep ≠ [])
    (h : splitFirst sep s = some (pre, post)) :
    pySplit sep s = pre :: pySplit sep post := by
  have hlt : post.length < s.length := splitFirst_length_lt h hsep
  have h1 : pySplitGo sep (s.length + 1) s = pre :: pySplitGo sep s.length post := by
    simp [pySplitGo, h]
  unfold pySplit
  rw [h1]
  exact congrArg (pre :: ·)
    (pySplitGo_fuel_irrel hsep s.length (post.length + 1) post (by omega) (by omega))

lemma pySplit_length_pos (sep s : List Char) : 1 ≤ (pySplit sep s).length := by
  simp only [pySplit, pySplitGo]
  cases splitFirst sep s with
  | none => simp
  | some pr => simp

lemma isPrefixOf_cons_same (c : Char) (p s : List Char) :
    (c :: p).isPrefixOf (c :: s) = p.isPrefixOf s := by
  simp [List.isPrefixOf]

lemma splitFirst_cons_false {sep : List Char} {x : Char} {t : List Char}
    (h : sep.isPrefixOf (x :: t) = false) :
    splitFirst sep (x :: t) = Option.map (fun pr => (x :: pr.1, pr.2)) (splitFirst sep t) := by
  simp [splitFirst, h]

lemma splitFirst_json_none {b c : List Char} (hb : btick ∉ b) (hc : btick ∉ c)
    (hjc : List.isPrefixOf ('j' :: 's' :: 'o' :: 'n' :: []) c = false) :
    splitFirst jsonFenceStr (b ++ fenceStr ++ c) = none := by
  induction b with
  | nil =>
    simp only [List.nil_append]
    cases c with
    | nil => decide
    | cons d c' =>
      have hd : d ≠ btick := fun he => hc (he ▸ List.mem_cons_self d c')
      have hc' : btick ∉ c' := fun hm => hc (List.mem_cons_of_mem d hm)
      have hrec : splitFirst (btick :: btick :: btick :: 'j' :: 's' :: 'o' :: 'n' :: []) (d :: c')
          = none := splitFirst_of_head_notMem hc
      have hc1 : List.isPrefixOf (btick :: btick :: btick :: 'j' :: 's' :: 'o' :: 'n' :: [])
          (btick :: btick :: btick :: d :: c') = false := by
        rw [isPrefixOf_cons_same, isPrefixOf_cons_same, isPrefixOf_cons_same]; exact hjc
      have hc2 : List.isPrefixOf (btick :: btick :: btick :: 'j' :: 's' :: 'o' :: 'n' :: [])
          (btick :: btick :: d :: c') = false := by
        rw [isPrefixOf_cons_same, isPrefixOf_cons_same]; exact isPrefixOf_cons_of_ne hd
      have hc3 : List.isPrefixOf (btick :: btick :: btick :: 'j' :: 's' :: 'o' :: 'n' :: [])
          (btick :: d :: c') = false := by
        rw [isPrefixOf_cons_same]; exact isPrefixOf_cons_of_ne hd
      rw [jsonFence_eq]
      show splitFirst (btick :: btick :: btick :: 'j' :: 's' :: 'o' :: 'n' :: [])
          (btick :: btick :: btick :: d :: c') = none
      rw [splitFirst_cons_false hc1, splitFirst_cons_false hc2, splitFirst_cons_false hc3,
        hrec]
      rfl
  | cons x b' ih =>
    have hx : x ≠ btick := fun he => hb (he ▸ List.mem_cons_self x b')
    have hb' : btick ∉ b' := fun hm => hb (List.mem_cons_of_mem x hm)
    have ihh := ih hb'
    show splitFirst jsonFenceStr (x :: (b' ++ fenceStr ++ c)) = none
    rw [jsonFence_eq] at ihh ⊢
    rw [List.append_assoc] at ihh
    simp [splitFirst, isPrefixOf_cons_of_ne hx, ihh]

lemma getD_one_cons {x : List Char} {L : List (List Char)} :
    (x :: L).getD 1 [] = L.getD 0 [] := by simp [List.getD]

lemma getD_zero_cons {x : List Char} {L : List (List Char)} :
    (x :: L).getD 0 [] = x := by simp [List.getD]

lemma pySplit_no_occurrence {c₀ : Char} {sep' b : List Char} (hb : c₀ ∉ b) :
    pySplit (c₀ :: sep') b = [b] :=
  pySplit_none (splitFirst_of_head_notMem hb)

lemma extract_json_branch (a b c : List Char) (ha : btick ∉ a) (hb : btick ∉ b)
    (hc : btick ∉ c) :
    extractJson (a ++ jsonFenceStr ++ b ++ fenceStr ++ c) = pyStrip b := by
  have hjne : jsonFenceStr ≠ [] := by decide
  have hfne : fenceStr ≠ [] := by decide
  have hassoc : a ++ jsonFenceStr ++ b ++ fenceStr ++ c
      = a ++ jsonFenceStr ++ (b ++ fenceStr ++ c) := by simp [List.append_assoc]
  rw [hassoc]
  have hcontains : containsSub jsonFenceStr (a ++ jsonFenceStr ++ (b ++ fenceStr ++ c)) = true :=
    containsSub_of_boundary _ _ _
  have hsf : splitFirst jsonFenceStr (a ++ jsonFenceStr ++ (b ++ fenceStr ++ c))
      = some (a, b ++ fenceStr ++ c) := by
    rw [jsonFence_eq]
    exact splitFirst_at_boundary a (b ++ fenceStr ++ c) ha
  unfold extractJson
  rw [if_pos hcontains, pySplit_some hjne hsf, getD_one_cons]
  have hbfence : pySplit fenceStr b = [b] := by
    rw [fence_eq]; exact pySplit_no_occurrence hb
  by_cases hpre : List.isPrefixOf ('j' :: 's' :: 'o' :: 'n' :: []) c = true
  · obtain ⟨c', hc'⟩ := exists_of_isPrefixOf hpre
    have hshape : b ++ fenceStr ++ c = b ++ jsonFenceStr ++ c' := by
      rw [hc', jsonFence_split]
      simp [List.append_assoc]
    have hsf2 : splitFirst jsonFenceStr (b ++ fenceStr ++ c) = some (b, c') := by
      rw [hshape, jsonFence_eq]
      exact splitFirst_at_boundary b c' hb
    rw [pySplit_some hjne hsf2, getD_zero_cons, hbfence, getD_zero_cons]
  · have hjc : List.isPrefixOf ('j' :: 's' :: 'o' :: 'n' :: []) c = false := by
      revert hpre
      cases List.isPrefixOf ('j' :: 's' :: 'o' :: 'n' :: []) c <;> simp
    have hsfn : splitFirst jsonFenceStr (b ++ fenceStr ++ c) = none :=
      splitFirst_json_none hb hc hjc
    rw [pySplit_none hsfn, getD_zero_cons]
    have hsf3 : splitFirst fenceStr (b ++ fenceStr ++ c) = some (b, c) := by
      rw [fence_eq]
      exact splitFirst_at_boundary b c hb
    rw [pySplit_some hfne hsf3, getD_zero_cons]

lemma extract_mid_branch (a b c : List Char) (ha : btick ∉ a) (hb : btick ∉ b)
    (hnj : containsSub jsonFenceStr (a ++ fenceStr ++ b ++ fenceStr ++ c) = false) :
    extractJson (a ++ fenceStr ++ b ++ fenceStr ++ c) = pyStrip b := by
  have hfne : fenceStr ≠ [] := by decide
  have hassoc : a ++ fenceStr ++ b ++ fenceStr ++ c
      = a ++ fenceStr ++ (b ++ fenceStr ++ c) := by simp [List.append_assoc]
  rw [hassoc] at hnj ⊢
  have hcontains : containsSub fenceStr (a ++ fenceStr ++ (b ++ fenceStr ++ c)) = true :=
    containsSub_of_boundary _ _ _
  have hsf : splitFirst fenceStr (a ++ fenceStr ++ (b ++ fenceStr ++ c))
      = some (a, b ++ fenceStr ++ c) := by
    rw [fence_eq]
    exact splitFirst_at_boundary a (b ++ fenceStr ++ c) ha
  have hsf2 : splitFirst fenceStr (b ++ fenceStr ++ c) = some (b, c) := by
    rw [fence_eq]
    exact splitFirst_at_boundary b c hb
  have hbfence : pySplit fenceStr b = [b] := by
    rw [fence_eq]; exact pySplit_no_occurrence hb
  have hnj' : containsSub jsonFenceStr (a ++ (fenceStr ++ (b ++ (fenceStr ++ c)))) = false := by
    simpa [List.append_assoc] using hnj
  unfold extractJson
  rw [if_neg (by simp [hnj']), if_pos hcontains, pySplit_some hfne hsf, getD_one_cons,
    pySplit_some hfne hsf2, getD_zero_cons, hbfence, getD_zero_cons]

lemma extract_no_fence {s : List Char} (h : containsSub fenceStr s = false) :
    extractJson s = s := by
  have hj : containsSub jsonFenceStr s = false := by
    cases h' : containsSub jsonFenceStr s with
    | false => rfl
    | true => exact absurd (containsSub_fence_of_json h') (by simp [h])
  unfold extractJson
  rw [if_neg (by simp [hj]), if_neg (by simp [h])]

/-!
## Batch Generator (retry loop)

`generate_main_dishes_batch` / `generate_recipes_batch` /
`generate_side_dishes_batch` / `generate_simple_main_dishes_batch` all share
the loop `for attempt in range(max_retries)` with `max_retries = 3`.
One attempt is abstracted by an oracle giving, per attempt index, the joint
outcome of the client call plus JSON decoding:
* `clientError`  - the client call raised (the broad `except Exception` arm);
* `decodeError`  - `json.loads` raised `JSONDecodeError`;
* `parsed o`     - parsing succeeded; `o` is the value of the items key
  (`data.get("mainDishes", [])` etc.), `none` when the key is absent.
The loop's observable effects are traced as events (API calls and sleeps).
-/

inductive AttemptOut (α : Type) where
  | clientError : AttemptOut α
  | decodeError : AttemptOut α
  | parsed : Option (List α) → AttemptOut α

inductive GenEvent where
  | apiCall : Nat → GenEvent
  | sleepFor : Nat → GenEvent
deriving DecidableEq

/-- `max_retries = 3` in all four scripts. -/
def maxRetries : Nat := 3

/-- The body of the retry loop, iterated over the list of attempt indices
(`range(max_retries)`).  Translated from `generate_main_dishes.py`
lines 104-149: a successful parse returns `data.get("mainDishes", [])`
immediately; a failure sleeps 3 seconds and continues when
`attempt < max_retries - 1`, else returns `[]`. -/
def genBatchLoop {α : Type} (oracle : Nat → AttemptOut α) : List Nat → List α × List GenEvent
  | [] => ([], [])
  | attempt :: rest =>
    match oracle attempt with
    | .parsed o => (o.getD [], [GenEvent.apiCall attempt])
    | .clientError =>
      if attempt < maxRetries - 1 then
        let r := genBatchLoop oracle rest
        (r.1, GenEvent.apiCall attempt :: GenEvent.sleepFor 3 :: r.2)
      else ([], [GenEvent.apiCall attempt])
    | .decodeError =>
      if attempt < maxRetries - 1 then
        let r := genBatchLoop oracle rest
        (r.1, GenEvent.apiCall attempt :: GenEvent.sleepFor 3 :: r.2)
      else ([], [GenEvent.apiCall attempt])

/-- `generate_*_batch`: run the retry loop over `range(max_retries)`. -/
def generateBatch {α : Type} (oracle : Nat → AttemptOut α) : List α × List GenEvent :=
  genBatchLoop oracle (List.range maxRetries)

/-- The expected event trace when the first success is at attempt `j`:
one API call per attempt `0..j`, a 3-second sleep between consecutive
attempts, and no trailing sleep. -/
def callTrace (j : Nat) : List GenEvent :=
  (List.range j).foldr (fun k acc => GenEvent.apiCall k :: GenEvent.sleepFor 3 :: acc)
    [GenEvent.apiCall j]

/-!
## Batch Orchestrator

`generate_main_dishes_for_category` (generate_main_dishes.py lines 151-179),
with the same loop in gen_simple.py `main`, generate_side_dishes.py
`generate_all_side_dishes` and generate_preset_recipes.py.  The batch
generator is abstracted as an oracle `gen` taking the batch index (the
source of per-call nondeterminism of the backend), the requested count
(`batch_size = min(BATCH_SIZE, remaining)`, an `Int` because Python's
subtraction may go negative if the backend over-delivers) and the current
exclusion-name list.
-/

structure RunState (α : Type) where
  items : List α
  names : List (List Char)

/-- One loop iteration's state update, translated from lines 168-173:
`if batch_main_dishes:` extend `all_main_dishes` and `existing_names`
(via `md.get("name", "")`, modelled by `getName`), else skip. -/
def orchStep {α : Type} (getName : α → List Char) (st : RunState α) (batch : List α) :
    RunState α :=
  if batch.isEmpty then st
  else { items := st.items ++ batch, names := st.names ++ batch.map getName }

/-- The orchestrator loop from batch index `i`, running `n` more batches.
Besides the final state it returns the trace of per-batch requested counts
and the trace of per-batch results. -/
def orchRunFrom {α : Type} (B total : Nat) (getName : α → List Char)
    (gen : Nat → Int → List (List Char) → List α) :
    Nat → Nat → RunState α → RunState α × List Int × List (List α)
  | 0, _, st => (st, [], [])
  | n + 1, i, st =>
    let req : Int := min (B : Int) ((total : Int) - st.items.length)
    let batch := gen i req st.names
    let st' := orchStep getName st batch
    let rest := orchRunFrom B total getName gen n (i + 1) st'
    (rest.1, req :: rest.2.1, batch :: rest.2.2)

/-- `batches = (total_count + BATCH_SIZE - 1) // BATCH_SIZE` (line 159). -/
def numBatches (total B : Nat) : Nat := (total + B - 1) / B

/-- A full orchestrator run: `numBatches` iterations from the empty
accumulator. -/
def orchRun {α : Type} (B total : Nat) (getName : α → List Char)
    (gen : Nat → Int → List (List Char) → List α) :
    RunState α × List Int × List (List α) :=
  orchRunFrom B total getName gen (numBatches total B) 0 ⟨[], []⟩

/-- Python `l[-n:]` (used at generate_side_dishes.py line 36 with n = 20):
the most recent `n` elements, or the whole list when shorter. -/
def pyLastN (n : Nat) (l : List (List Char)) : List (List Char) :=
  l.drop (l.length - n)

/-- The exclusion names surfaced into the side-dish prompt
(generate_side_dishes.py line 36): `existing_names[-20:]`. -/
def sideDishWindow (existing : List (List Char)) : List (List Char) :=
  pyLastN 20 existing

/-- The exclusion names surfaced into the main-dish prompt
(generate_main_dishes.py line 49): the full `existing_names`. -/
def mainDishExclusion (existing : List (List Char)) : List (List Char) :=
  existing

/-!
## Aggregator/Merger

gen_simple.py `main` lines 170-190: read `PresetMainDishes.json` (or start
from the four-key empty document on `FileNotFoundError`), assign
`all_categories["simple"] = all_main_dishes`, write back.  A JSON document
is modelled as an association list preserving key order, with Python dict
assignment semantics (replace in place if present, append otherwise).
-/

def omakaseKey : List Char := "omakase".toList

def heartyKey : List Char := "hearty".toList

def fishMainKey : List Char := "fishMain".toList

def simpleKey : List Char := "simple".toList

abbrev Doc (α : Type) : Type := List (List Char × List α)

/-- Python `d[k] = v` on a dict rendered as an ordered association list. -/
def setKey {α : Type} : Doc α → List Char → List α → Doc α
  | [], k, v => [(k, v)]
  | (k', v') :: rest, k, v =>
    if k' = k then (k, v) :: rest else (k', v') :: setKey rest k v

/-- Python `d[k]` lookup (`none` when the key is absent). -/
def getKey {α : Type} : Doc α → List Char → Option (List α)
  | [], _ => none
  | (k', v') :: rest, k => if k' = k then some v' else getKey rest k

/-- The document created on `FileNotFoundError` (lines 177-182): every
known category key present and empty. -/
def defaultMainDoc {α : Type} : Doc α :=
  [(omakaseKey, []), (heartyKey, []), (fishMainKey, []), (simpleKey, [])]

/-- The merge performed by gen_simple.py: start from the existing document
(or the default when absent) and overwrite the `"simple"` key wholesale. -/
def mergeSimpleDoc {α : Type} (existing : Option (Doc α)) (upd : List α) : Doc α :=
  setKey (existing.getD defaultMainDoc) simpleKey upd

/-! Orchestrator lemmas. -/

lemma orchStep_items {α : Type} (getName : α → List Char) (st : RunState α)
    (batch : List α) : (orchStep getName st batch).items = st.items ++ batch := by
  cases batch with
  | nil => simp [orchStep]
  | cons x xs => simp [orchStep]

lemma orchStep_names {α : Type} (getName : α → List Char) (st : RunState α)
    (batch : List α) :
    (orchStep getName st batch).names = st.names ++ batch.map getName := by
  cases batch with
  | nil => simp [orchStep]
  | cons x xs => simp [orchStep]

lemma orchRunFrom_reqs_length {α : Type} (B total : Nat) (getName : α → List Char)
    (gen : Nat → Int → List (List Char) → List α) :
    ∀ n i st, ((orchRunFrom B total getName gen n i st).2.1).length = n := by
  intro n
  induction n with
  | zero => intro i st; rfl
  | succ m ih => intro i st; simp [orchRunFrom, ih]

lemma orchRunFrom_results_length {α : Type} (B total : Nat) (getName : α → List Char)
    (gen : Nat → Int → List (List Char) → List α) :
    ∀ n i st, ((orchRunFrom B total getName gen n i st).2.2).length = n := by
  intro n
  induction n with
  | zero => intro i st; rfl
  | succ m ih => intro i st; simp [orchRunFrom, ih]

lemma orchRunFrom_items_join {α : Type} (B total : Nat) (getName : α → List Char)
    (gen : Nat → Int → List (List Char) → List α) :
    ∀ n i st, (orchRunFrom B total getName gen n i st).1.items
      = st.items ++ ((orchRunFrom B total getName gen n i st).2.2).flatten := by
  intro n
  induction n with
  | zero => intro i st; simp [orchRunFrom]
  | succ m ih =>
    intro i st
    simp only [orchRunFrom, List.flatten_cons, ih, orchStep_items, List.append_assoc]

lemma orchRunFrom_names_join {α : Type} (B total : Nat) (getName : α → List Char)
    (gen : Nat → Int → List (List Char) → List α) :
    ∀ n i st, (orchRunFrom B total getName gen n i st).1.names
      = st.names ++ (((orchRunFrom B total getName gen n i st).2.2).flatten).map getName := by
  intro n
  induction n with
  | zero => intro i st; simp [orchRunFrom]
  | succ m ih =>
    intro i st
    simp only [orchRunFrom, List.flatten_cons, ih, orchStep_names, List.map_append,
      List.append_assoc]

lemma orchRunFrom_req_formula {α : Type} (B total : Nat) (getName : α → List Char)
    (gen : Nat → Int → List (List Char) → List α) :
    ∀ n i st k, k < n →
      ((orchRunFrom B total getName gen n i st).2.1).getD k 0
        = min (B : Int) ((total : Int)
            - (st.items.length
               + ((((orchRunFrom B total getName gen n i st).2.2).take k).flatten).length)) := by
  intro n
  induction n with
  | zero => intro i st k hk; omega
  | succ m ih =>
    intro i st k hk
    cases k with
    | zero => simp [orchRunFrom]
    | succ k' =>
      have hk' : k' < m := by omega
      have step := ih (i + 1)
        (orchStep getName st (gen i (min (B : Int) ((total : Int) - st.items.length)) st.names))
        k' hk'
      simp only [orchRunFrom, List.getD_cons_succ, List.take_succ_cons, List.flatten]
      rw [step]
      simp [orchStep_items, Int.add_assoc]

lemma numBatches_covers {total B : Nat} (hB : 1 ≤ B) : total ≤ numBatches total B * B := by
  have h1 := Nat.div_add_mod (total + B - 1) B
  have h2 : (total + B - 1) % B < B := Nat.mod_lt _ (by omega)
  unfold numBatches
  rw [Nat.mul_comm]
  generalize hq : B * ((total + B - 1) / B) = m at h1
  omega

lemma orchRunFrom_sum {α : Type} (B total : Nat) (getName : α → List Char)
    (gen : Nat → Int → List (List Char) → List α)
    (hg : ∀ i r ns, 0 ≤ r → (gen i r ns).length = r.toNat) :
    ∀ n i st, st.items.length ≤ total → total - st.items.length ≤ n * B →
      ((orchRunFrom B total getName gen n i st).2.1).sum
        = (total : Int) - st.items.length := by
  intro n
  induction n with
  | zero =>
    intro i st hle hcov
    have : st.items.length = total := by omega
    simp [orchRunFrom, this]
  | succ m ih =>
    intro i st hle hcov
    have hreq0 : (0 : Int) ≤ min (B : Int) ((total : Int) - st.items.length) := by
      have : (st.items.length : Int) ≤ (total : Int) := by exact_mod_cast hle
      omega
    have hblen : (gen i (min (B : Int) ((total : Int) - st.items.length)) st.names).length
        = (min (B : Int) ((total : Int) - st.items.length)).toNat := hg _ _ _ hreq0
    set st' := orchStep getName st
      (gen i (min (B : Int) ((total : Int) - st.items.length)) st.names) with hst'
    have hlen' : st'.items.length
        = st.items.length + (min (B : Int) ((total : Int) - st.items.length)).toNat := by
      rw [hst', orchStep_items, List.length_append, hblen]
    have hle' : st'.items.length ≤ total := by
      rw [hlen']
      omega
    have hcov' : total - st'.items.length ≤ m * B := by
      rw [hlen']
      have hmul : (m + 1) * B = m * B + B := Nat.succ_mul m B
      rw [hmul] at hcov
      generalize m * B = q at hcov ⊢
      omega
    have hsum := ih (i + 1) st' hle' hcov'
    simp only [orchRunFrom, List.sum_cons]
    rw [hsum, hlen']
    push_cast
    omega

/-! ## Claim theorems -/

/-- Claim C4: for every raw response string, if it contains a fenced code
block tagged as JSON the extractor returns exactly the inner content of the
first such block trimmed of surrounding whitespace; else if it contains any
fenced code block it returns the first block's inner content trimmed; else
it returns the raw text verbatim.  The block structure is expressed by the
decomposition `a ++ opening-fence ++ body ++ fence ++ rest` with the
surrounding pieces free of backticks (so the named fences are the first
ones). -/
theorem extractor_branches :
    (∀ a b c : List Char, btick ∉ a → btick ∉ b → btick ∉ c →
        extractJson (a ++ jsonFenceStr ++ b ++ fenceStr ++ c) = pyStrip b) ∧
    (∀ a b c : List Char, btick ∉ a → btick ∉ b →
        containsSub jsonFenceStr (a ++ fenceStr ++ b ++ fenceStr ++ c) = false →
        extractJson (a ++ fenceStr ++ b ++ fenceStr ++ c) = pyStrip b) ∧
    (∀ s : List Char, containsSub fenceStr s = false → extractJson s = s) :=
  ⟨fun a b c ha hb hc => extract_json_branch a b c ha hb hc,
   fun a b c ha hb hnj => extract_mid_branch a b c ha hb hnj,
   fun _ h => extract_no_fence h⟩

/-- Witness for C4 at a concrete response wrapped in a JSON-tagged fence. -/
theorem extractor_branches_check :
    extractJson ("Answer: ".toList ++ jsonFenceStr ++ "\n[1, 2]\n".toList ++ fenceStr
        ++ " done".toList) = pyStrip ("\n[1, 2]\n".toList) :=
  extractor_branches.1 ("Answer: ".toList) ("\n[1, 2]\n".toList) (" done".toList)
    (by decide) (by decide) (by decide)

/-- Claim C8: the Response Extractor is idempotent on already-bare JSON
text (text containing no fence marker). -/
theorem extractor_idempotent_bare :
    ∀ s : List Char, containsSub fenceStr s = false →
      extractJson (extractJson s) = extractJson s := by
  intro s h
  rw [extract_no_fence h, extract_no_fence h]

/-- Witness for C8 at a concrete bare-JSON string. -/
theorem extractor_idempotent_bare_check :
    extractJson (extractJson ("[1, 2, 3]".toList)) = extractJson ("[1, 2, 3]".toList) :=
  extractor_idempotent_bare ("[1, 2, 3]".toList) (by decide)

/-- Claim C9: the Response Extractor is total (it is a Lean function) and
the Python list indexings `split(...)[1]` and `split(...)[0]` are in bounds
under the guarding substring checks: whenever the separator occurs, its
split has at least two segments, and any split has at least one segment. -/
theorem extractor_indexing_safe :
    ∀ s : List Char,
      (containsSub jsonFenceStr s = true → 2 ≤ (pySplit jsonFenceStr s).length) ∧
      (containsSub fenceStr s = true → 2 ≤ (pySplit fenceStr s).length) ∧
      1 ≤ (pySplit fenceStr ((pySplit jsonFenceStr s).getD 1 [])).length ∧
      1 ≤ (pySplit fenceStr ((pySplit fenceStr s).getD 1 [])).length := by
  intro s
  refine ⟨fun h => ?_, fun h => ?_, pySplit_length_pos _ _, pySplit_length_pos _ _⟩
  · obtain ⟨pre, post, hsf⟩ := splitFirst_isSome_of_containsSub (by decide) h
    rw [pySplit_some (by decide) hsf]
    have := pySplit_length_pos jsonFenceStr post
    simp only [List.length_cons]
    omega
  · obtain ⟨pre, post, hsf⟩ := splitFirst_isSome_of_containsSub (by decide) h
    rw [pySplit_some (by decide) hsf]
    have := pySplit_length_pos fenceStr post
    simp only [List.length_cons]
    omega

/-- Witness for C9 at concrete fenced strings. -/
theorem extractor_indexing_safe_check :
    2 ≤ (pySplit jsonFenceStr ("x```json[]```".toList)).length ∧
    2 ≤ (pySplit fenceStr ("x``` a ```".toList)).length :=
  ⟨(extractor_indexing_safe ("x```json[]```".toList)).1 (by decide),
   (extractor_indexing_safe ("x``` a ```".toList)).2.1 (by decide)⟩

/-- Claim C1: for desired_count ≥ 1 and batch_size ≥ 1 the orchestrator
issues exactly `(total + B - 1) / B` (= ceil(total/B)) batches; the k-th
batch requests `min(B, total - items collected so far)`; under a
full-yield generator the requested counts sum to the desired count; and
concretely total 12 with batch size 5 requests 5, 5, 2 in order. -/
theorem orchestrator_schedule {α : Type} (total B : Nat) (_hT : 1 ≤ total) (hB : 1 ≤ B)
    (getName : α → List Char) (gen : Nat → Int → List (List Char) → List α)
    (hg : ∀ i r ns, 0 ≤ r → (gen i r ns).length = r.toNat) :
    ((orchRun B total getName gen).2.1).length = numBatches total B ∧
    ((orchRun B total getName gen).2.1).sum = (total : Int) ∧
    (∀ k, k < numBatches total B →
      ((orchRun B total getName gen).2.1).getD k 0
        = min (B : Int) ((total : Int)
            - ((((orchRun B total getName gen).2.2).take k).flatten).length)) ∧
    (orchRun 5 12 (fun _ : Unit => ([] : List Char))
        (fun _ r _ => List.replicate r.toNat ())).2.1 = [5, 5, 2] := by
  refine ⟨orchRunFrom_reqs_length B total getName gen _ _ _, ?_, ?_, by decide⟩
  · have h := orchRunFrom_sum B total getName gen hg (numBatches total B) 0 ⟨[], []⟩
      (by simp) (by simpa using numBatches_covers hB)
    simpa [orchRun] using h
  · intro k hk
    have h := orchRunFrom_req_formula B total getName gen (numBatches total B) 0 ⟨[], []⟩ k hk
    simpa [orchRun] using h

/-- Witness for C1 with a full-yield generator at total 12, batch size 5. -/
theorem orchestrator_schedule_check :
    (orchRun 5 12 (fun _ : Unit => ([] : List Char))
        (fun _ r _ => List.replicate r.toNat ())).2.1 = [5, 5, 2] :=
  (orchestrator_schedule 12 5 (by decide) (by decide) (fun _ => [])
    (fun _ r _ => List.replicate r.toNat ()) (fun i r ns hr => by simp)).2.2.2

/-- Claim C3: for every generator behaviour (including one returning empty
batches) the run completes all `ceil(total/B)` batches and returns the
concatenation of the per-batch results; an always-failing generator at
total 12, batch size 5 still runs 3 batches and yields a shorter-than-
requested (empty) item list, with no error value anywhere. -/
theorem empty_batch_skipped :
    ∀ (α : Type) (total B : Nat) (getName : α → List Char)
      (gen : Nat → Int → List (List Char) → List α),
      ((orchRun B total getName gen).2.1).length = numBatches total B ∧
      ((orchRun B total getName gen).2.2).length = numBatches total B ∧
      (orchRun B total getName gen).1.items = ((orchRun B total getName gen).2.2).flatten ∧
      ((orchRun 5 12 (fun _ : Unit => ([] : List Char)) (fun _ _ _ => [])).2.1).length = 3 ∧
      (orchRun 5 12 (fun _ : Unit => ([] : List Char)) (fun _ _ _ => [])).1.items = [] ∧
      ((orchRun 5 12 (fun _ : Unit => ([] : List Char)) (fun _ _ _ => [])).1.items).length
        < 12 := by
  intro α total B getName gen
  refine ⟨orchRunFrom_reqs_length B total getName gen _ _ _,
    orchRunFrom_results_length B total getName gen _ _ _, ?_, by decide, by decide, by decide⟩
  have h := orchRunFrom_items_join B total getName gen (numBatches total B) 0 ⟨[], []⟩
  simpa [orchRun] using h

/-- Claim C6: after each batch the exclusion-name list grows by exactly
that batch's item names in order (an empty/failed batch adds none); the
accumulated names are exactly the names of all collected items; the
side-dish variant surfaces only the most recent 20 names into the prompt
(a suffix of the full history, which is itself retained), while the
main-dish variant surfaces the full history. -/
theorem exclusion_context_growth :
    (∀ (α : Type) (getName : α → List Char) (st : RunState α) (batch : List α),
        (orchStep getName st batch).names = st.names ++ batch.map getName) ∧
    (∀ (α : Type) (total B : Nat) (getName : α → List Char)
        (gen : Nat → Int → List (List Char) → List α),
        (orchRun B total getName gen).1.names
          = (((orchRun B total getName gen).2.2).flatten).map getName) ∧
    (∀ ns : List (List Char), (sideDishWindow ns).length = min 20 ns.length) ∧
    (∀ ns : List (List Char), ns.take (ns.length - 20) ++ sideDishWindow ns = ns) ∧
    (∀ ns : List (List Char), ns.length ≤ 20 → sideDishWindow ns = ns) ∧
    (∀ ns : List (List Char), mainDishExclusion ns = ns) := by
  refine ⟨fun α getName st batch => orchStep_names getName st batch, ?_, ?_, ?_, ?_,
    fun ns => rfl⟩
  · intro α total B getName gen
    have h := orchRunFrom_names_join B total getName gen (numBatches total B) 0 ⟨[], []⟩
    simpa [orchRun] using h
  · intro ns
    simp only [sideDishWindow, pyLastN, List.length_drop]
    omega
  · intro ns
    simp [sideDishWindow, pyLastN, List.take_append_drop]
  · intro ns hle
    simp [sideDishWindow, pyLastN, Nat.sub_eq_zero_of_le hle]

/-- Witness for C6: the window is the identity on a short name history. -/
theorem exclusion_context_growth_check :
    sideDishWindow ["ab".toList] = ["ab".toList] :=
  exclusion_context_growth.2.2.2.2.1 ["ab".toList] (by decide)

/-- Claim C2: when every attempt fails (client raises or JSON decoding
fails), the batch generator makes exactly 3 attempts, sleeps 3 seconds
between consecutive attempts but not after the last, and returns an empty
result instead of raising. -/
theorem retry_exhaustion {α : Type} (oracle : Nat → AttemptOut α)
    (h : ∀ i, i < maxRetries →
      oracle i = AttemptOut.clientError ∨ oracle i = AttemptOut.decodeError) :
    generateBatch oracle
      = (([] : List α), [GenEvent.apiCall 0, GenEvent.sleepFor 3, GenEvent.apiCall 1,
          GenEvent.sleepFor 3, GenEvent.apiCall 2]) := by
  have h0 := h 0 (by decide)
  have h1 := h 1 (by decide)
  have h2 := h 2 (by decide)
  have hr : List.range maxRetries = [0, 1, 2] := by decide
  unfold generateBatch
  rw [hr]
  rcases h0 with h0 | h0 <;> rcases h1 with h1 | h1 <;> rcases h2 with h2 | h2 <;>
    simp [genBatchLoop, h0, h1, h2, maxRetries]

/-- Witness for C2 with an always-raising client. -/
theorem retry_exhaustion_check :
    generateBatch (fun _ => (AttemptOut.clientError : AttemptOut Unit))
      = ([], [GenEvent.apiCall 0, GenEvent.sleepFor 3, GenEvent.apiCall 1,
          GenEvent.sleepFor 3, GenEvent.apiCall 2]) :=
  retry_exhaustion _ (fun _ _ => Or.inl rfl)

/-- Claim C5: if the response parses successfully at attempt `j` (after
only failures), the generator returns the parsed items list as-is —
whatever its length — with no further attempts: the event trace ends at
the `j`-th API call. -/
theorem success_returns_items {α : Type} (oracle : Nat → AttemptOut α) (j : Nat)
    (items : List α) (hj : j < maxRetries)
    (hsucc : oracle j = AttemptOut.parsed (some items))
    (hfail : ∀ k, k < j →
      oracle k = AttemptOut.clientError ∨ oracle k = AttemptOut.decodeError) :
    generateBatch oracle = (items, callTrace j) := by
  have hr : List.range maxRetries = [0, 1, 2] := by decide
  have hj3 : j < 3 := hj
  unfold generateBatch
  rw [hr]
  interval_cases j
  · have hct : callTrace 0 = [GenEvent.apiCall 0] := by decide
    rw [hct]
    simp [genBatchLoop, hsucc]
  · have hct : callTrace 1
        = [GenEvent.apiCall 0, GenEvent.sleepFor 3, GenEvent.apiCall 1] := by decide
    rw [hct]
    have h0 := hfail 0 (by omega)
    rcases h0 with h0 | h0 <;> simp [genBatchLoop, h0, hsucc, maxRetries]
  · have hct : callTrace 2
        = [GenEvent.apiCall 0, GenEvent.sleepFor 3, GenEvent.apiCall 1,
           GenEvent.sleepFor 3, GenEvent.apiCall 2] := by decide
    rw [hct]
    have h0 := hfail 0 (by omega)
    have h1 := hfail 1 (by omega)
    rcases h0 with h0 | h0 <;> rcases h1 with h1 | h1 <;>
      simp [genBatchLoop, h0, h1, hsucc, maxRetries]

/-- Witness for C5: success on the second attempt with a single item
(fewer than any requested count above 1) returns that item unmodified. -/
theorem success_returns_items_check :
    generateBatch
        (fun k => if k = 1 then AttemptOut.parsed (some [0]) else AttemptOut.clientError)
      = ([0], callTrace 1) :=
  success_returns_items _ 1 [0] (by decide) rfl
    (fun k hk => by
      have hk0 : k = 0 := by omega
      subst hk0
      exact Or.inl rfl)

/-- Claim C10: a successful parse whose top-level object lacks the items
key (or maps it to an empty array) makes the generator return an empty
result immediately after the first attempt — no retries, no sleeps — and
the orchestrator treats that empty result exactly like a retry-exhausted
batch: the state update is the identity (nothing appended, no names
added). -/
theorem missing_items_key_empty {α : Type} (oracle : Nat → AttemptOut α)
    (h : oracle 0 = AttemptOut.parsed none ∨ oracle 0 = AttemptOut.parsed (some [])) :
    generateBatch oracle = (([] : List α), [GenEvent.apiCall 0]) ∧
    (∀ (getName : α → List Char) (st : RunState α), orchStep getName st [] = st) := by
  constructor
  · have hr : List.range maxRetries = [0, 1, 2] := by decide
    unfold generateBatch
    rw [hr]
    rcases h with h | h <;> simp [genBatchLoop, h]
  · intro getName st
    simp [orchStep]

/-- Witness for C10 with a parse missing the items key on attempt 0. -/
theorem missing_items_key_empty_check :
    generateBatch (fun _ => (AttemptOut.parsed none : AttemptOut Unit))
      = ([], [GenEvent.apiCall 0]) :=
  (missing_items_key_empty _ (Or.inl rfl)).1

/-! Merge lemmas. -/

lemma getKey_setKey_self {α : Type} (d : Doc α) (k : List Char) (v : List α) :
    getKey (setKey d k v) k = some v := by
  induction d with
  | nil => simp [setKey, getKey]
  | cons p rest ih =>
    obtain ⟨k', v'⟩ := p
    by_cases hk : k' = k
    · simp [setKey, hk, getKey]
    · simp [setKey, hk, getKey, ih]

lemma getKey_setKey_ne {α : Type} (d : Doc α) (k k₂ : List Char) (v : List α)
    (h : k₂ ≠ k) : getKey (setKey d k v) k₂ = getKey d k₂ := by
  have hne : ¬ k = k₂ := fun he => h (Eq.symm he)
  induction d with
  | nil => simp [setKey, getKey, hne]
  | cons p rest ih =>
    obtain ⟨k', v'⟩ := p
    by_cases hk : k' = k
    · subst hk
      simp [setKey, getKey, hne]
    · have hstep : setKey ((k', v') :: rest) k v = (k', v') :: setKey rest k v := by
        simp [setKey, hk]
      rw [hstep]
      by_cases hk2 : k' = k₂
      · simp [getKey, hk2]
      · simp [getKey, hk2, ih]

/-- Claim C7: merging the update for `"simple"` into an output document
replaces that key's sequence wholesale, keeps every other key's sequence
unchanged, starts from the four-key empty document when no existing
document is found, and in particular the concrete merge of the spec's
end-to-end scenario holds. -/
theorem merge_replaces_key :
    (∀ (α : Type) (e : Option (Doc α)) (upd : List α),
        getKey (mergeSimpleDoc e upd) simpleKey = some upd) ∧
    (∀ (α : Type) (d : Doc α) (upd : List α) (k : List Char), k ≠ simpleKey →
        getKey (mergeSimpleDoc (some d) upd) k = getKey d k) ∧
    (∀ (α : Type) (upd : List α),
        mergeSimpleDoc none upd
          = [(omakaseKey, []), (heartyKey, []), (fishMainKey, []), (simpleKey, upd)]) ∧
    (mergeSimpleDoc (some [(omakaseKey, [1]), (heartyKey, []), (fishMainKey, []),
        (simpleKey, [])]) [2]
      = [(omakaseKey, [1]), (heartyKey, []), (fishMainKey, []), (simpleKey, [2])]) := by
  refine ⟨?_, ?_, ?_, by decide⟩
  · intro α e upd
    cases e with
    | none => exact getKey_setKey_self _ _ _
    | some d => exact getKey_setKey_self _ _ _
  · intro α d upd k hk
    exact getKey_setKey_ne d simpleKey k upd hk
  · intro α upd
    have h1 : omakaseKey ≠ simpleKey := by decide
    have h2 : heartyKey ≠ simpleKey := by decide
    have h3 : fishMainKey ≠ simpleKey := by decide
    simp [mergeSimpleDoc, defaultMainDoc, setKey, h1, h2, h3]

/-- Witness for C7: an untouched key keeps its sequence. -/
theorem merge_replaces_key_check :
    getKey (mergeSimpleDoc (some [(omakaseKey, [1]), (simpleKey, [])]) [2]) omakaseKey
      = getKey [(omakaseKey, [1]), (simpleKey, ([] : List Nat))] omakaseKey :=
  merge_replaces_key.2.1 Nat [(omakaseKey, [1]), (simpleKey, [])] [2] omakaseKey (by decide)
